import Mathlib

/-!
Verification of the title-matching core of dblp.py (DBLP Python Library,
version 1.0).  The development embeds the normalization pipeline
(`_remove_accents` together with the byte-level lowercasing applied at every
call site), the edit-distance scorer `_levenshtein`, and the two matching
entry points `DBLPResult.search_by_title` and `DBLPSearch._is_target`.

Modelling conventions:
* Text is a `List Char` of Unicode code points.  The source manipulates
  UTF-8 byte strings and decodes them with `_un`; byte-level operations that
  only touch ASCII bytes are represented by the corresponding per-character
  operation on the decoded list, which is exact because ASCII bytes never
  occur inside a multi-byte UTF-8 sequence.
* Python floats are modelled as exact rationals; every ratio appearing in
  the code has a tiny numerator and denominator, far away from rounding.
* A Python `ZeroDivisionError` is modelled by `Except.error Fault.zeroDivision`;
  code that cannot raise returns `Except.ok`.
-/

namespace Dblp

/-- Models Python 2 `str.lower` applied to a UTF-8 byte string, followed by
UTF-8 decoding (the `_un(title.lower())` idiom at lines 180, 184, 191 and
272-273 of dblp.py).  Byte-level `lower` maps only the ASCII bytes 65-90
(`A`..`Z`) to 97-122 (`a`..`z`) and leaves all other bytes unchanged; those
bytes are exactly the one-byte UTF-8 encodings of the same code points, so on
the decoded character list the operation lowercases unaccented ASCII capitals
and nothing else.  In particular accented capitals such as `Ö` pass through
unchanged. -/
def asciiLower (c : Char) : Char :=
  if 65 ≤ c.toNat ∧ c.toNat ≤ 90 then Char.ofNat (c.toNat + 32) else c

/-- Models `unicodedata.normalize` with form NFKD (line 60 of dblp.py), one
code point at a time.  The two accented code points occurring in this
development decompose into their base letter followed by the combining
diaeresis U+0308; every other code point used here (ASCII letters, digits,
punctuation, whitespace) has no NFKD decomposition and is left unchanged. -/
def nfkd (c : Char) : List Char :=
  if c = 'ö' then ['o', Char.ofNat 0x0308]
  else if c = 'Ö' then ['O', Char.ofNat 0x0308]
  else [c]

/-- Membership in Python's `string.ascii_letters` (line 60 of dblp.py): the
characters `a`..`z` (code points 97-122) and `A`..`Z` (65-90). -/
def ascii_letters (c : Char) : Bool :=
  (97 ≤ c.toNat && c.toNat ≤ 122) || (65 ≤ c.toNat && c.toNat ≤ 90)

/-- Line 60 of dblp.py:
`def _remove_accents(data): return ''.join(x for x in unicodedata.normalize('NFKD', data) if x in string.ascii_letters)`. -/
def _remove_accents (data : List Char) : List Char :=
  (data.flatMap nfkd).filter ascii_letters

/-- The normalization pipeline `_remove_accents(_un(title.lower()))` applied
to every title before comparison (lines 180, 184, 191, 272, 273 of dblp.py). -/
def normalize (title : List Char) : List Char :=
  _remove_accents (title.map asciiLower)

/-- The dynamic-programming table of `_levenshtein` (lines 63-86 of dblp.py),
with indices shifted by one so that `levFuel s1 s2 fuel i j` is the entry
`d[(i-1, j-1)]` of the source's dictionary `d`.  Boundaries: `d[(i,-1)] = i+1`
and `d[(-1,j)] = j+1` become the first two arms.  The main arm is the source's
recurrence: minimum of deletion `d[(i-1,j)]+1`, insertion `d[(i,j-1)]+1` and
substitution `d[(i-1,j-1)]+cost`, further reduced by the transposition entry
`d[(i-2,j-2)]+cost` when `i` and `j` are nonzero (the source's `if i and j`)
and the two adjacent character pairs are reversed.  The `fuel` argument only
drives the recursion; every call keeps `i + j ≤ fuel`, so the fuel-exhausted
arm is unreachable from `_levenshtein`. -/
def levFuel (s1 s2 : List Char) : Nat → Nat → Nat → Nat
  | _, 0, j => j
  | _, i+1, 0 => i+1
  | 0, _+1, _+1 => 0
  | fuel+1, i+1, j+1 =>
    let cost : Nat := if s1.getD i ' ' = s2.getD j ' ' then 0 else 1
    let noTrans : Nat :=
      min (min (levFuel s1 s2 fuel i (j+1) + 1) (levFuel s1 s2 fuel (i+1) j + 1))
        (levFuel s1 s2 fuel i j + cost)
    if 1 ≤ i ∧ 1 ≤ j ∧ s1.getD i ' ' = s2.getD (j-1) ' ' ∧ s1.getD (i-1) ' ' = s2.getD j ' '
    then min noTrans (levFuel s1 s2 fuel (i-1) (j-1) + cost)
    else noTrans

/-- Lines 63-86 of dblp.py: `_levenshtein(s1, s2)` returns
`d[lenstr1-1, lenstr2-1]`, i.e. the shifted table at `(len s1, len s2)`. -/
def _levenshtein (s1 s2 : List Char) : Nat :=
  levFuel s1 s2 (s1.length + s2.length) s1.length s2.length

/-- The runtime error a Python float division raises when the divisor is
zero (`ZeroDivisionError`). -/
inductive Fault
  | zeroDivision
deriving DecidableEq

/-- The `Publication` record of dblp.py (lines 94-118): a title, a key, a
type, an author list and a bag of optional bibliographic fields, all text. -/
structure Publication where
  pkey : List Char
  ptype : Option (List Char)
  title : List Char
  authors : List (List Char)
  url : Option (List Char) := none
  journal : Option (List Char) := none
  booktitle : Option (List Char) := none
  editor : Option (List Char) := none
  volume : Option (List Char) := none
  pages : Option (List Char) := none
  number : Option (List Char) := none
  series : Option (List Char) := none
  chapter : Option (List Char) := none
  publisher : Option (List Char) := none
  adress : Option (List Char) := none
  year : Option (List Char) := none
  month : Option (List Char) := none
  isbn : Option (List Char) := none
  bibtex : Option (List (List Char)) := none
deriving DecidableEq

/-- The `DBLPResult` record of dblp.py (lines 154-163): the query text, the
publication list and the `(author_key, author_name)` pairs found. -/
structure DBLPResult where
  query : List Char
  publications : List Publication
  authors : List (List Char × List Char)
deriving DecidableEq

/-- The exact-mode loop of `search_by_title` (lines 182-185 of dblp.py):
return the first publication whose normalized title equals the normalized
target, else fall through to `return None`. -/
def exactScan (t2 : List Char) : List Publication → Option Publication
  | [] => none
  | p :: ps =>
    let t1 := normalize p.title
    if t1 = t2 then some p else exactScan t2 ps

/-- The approximate-mode loop of `search_by_title` (lines 187-202 of dblp.py)
with its running state: `min_cer` (initially `100.0`) and `best` (initially
`None`).  Each candidate's normalized title `t1` is scored with
`cer = float(_levenshtein(t1,t2))/float(len(t1))`; the division raises
`ZeroDivisionError` when `len(t1) = 0`, modelled by the error branch guarding
the ratio, and on the surviving branch the ratio is the exact rational
`mkRat (_levenshtein t1 t2) t1.length` (equal to the real quotient since the
denominator is nonzero there).  A candidate with `cer < 0.01` is returned at
once; otherwise a strictly smaller `cer` updates the state.  After the loop,
`best` is returned if `min_cer < threshold`, else `None`. -/
def levScan (t2 : List Char) (threshold : ℚ) :
    List Publication → ℚ → Option Publication → Except Fault (Option Publication)
  | [], min_cer, best => .ok (if min_cer < threshold then best else none)
  | p :: ps, min_cer, best =>
    let t1 := normalize p.title
    if t1.length = 0 then .error Fault.zeroDivision
    else
      let cer : ℚ := mkRat (_levenshtein t1 t2) t1.length
      if cer < mkRat 1 100 then .ok (some p)
      else if cer < min_cer then levScan t2 threshold ps cer (some p)
      else levScan t2 threshold ps min_cer best

/-- Method `search_by_title` of `DBLPResult` (lines 178-202 of dblp.py):
normalize the target, then run the exact loop when `lev` is false and the
CER loop (initial state `min_cer = 100.0`, `best = None`) when it is true. -/
def DBLPResult.search_by_title (res : DBLPResult) (title : List Char)
    (lev : Bool) (threshold : ℚ) : Except Fault (Option Publication) :=
  let t2 := normalize title
  if lev = false then .ok (exactScan t2 res.publications)
  else levScan t2 threshold res.publications 100 none

/-- Method `_is_target` of `DBLPSearch` (lines 270-283 of dblp.py): both
titles are normalized; exact mode accepts iff they are equal; approximate
mode computes `cer = float(_levenshtein(t1,t2))/float(len(t1))` (raising
`ZeroDivisionError` when `len(t1) = 0`) and accepts iff `cer < threshold`. -/
def _is_target (t1 t2 : List Char) (lev : Bool) (threshold : ℚ) :
    Except Fault Bool :=
  let t1n := normalize t1
  let t2n := normalize t2
  if lev = false then
    if t1n = t2n then .ok true else .ok false
  else
    if t1n.length = 0 then .error Fault.zeroDivision
    else
      let cer : ℚ := mkRat (_levenshtein t1n t2n) t1n.length
      if cer < threshold then .ok true else .ok false

/-- The character error rate the approximate loops assign to a candidate
title against the normalized target `t2` (line 192 of dblp.py), as a single
expression: edit distance over normalized-candidate length, as the exact
rational `mkRat`. -/
def cerOf (t2 : List Char) (p : Publication) : ℚ :=
  mkRat (_levenshtein (normalize p.title) t2) (normalize p.title).length

-- Equality of run results is decidable; used only to evaluate the
-- development's concrete test cases.
deriving instance DecidableEq for Except

/-- The minimum CER over a publication list (`none` for the empty list):
the mathematical minimum the approximate scan is meant to track. -/
def minimumCer (t2 : List Char) : List Publication → Option ℚ
  | [] => none
  | p :: ps => some (match minimumCer t2 ps with
      | none => cerOf t2 p
      | some m => min (cerOf t2 p) m)

/-- The result the scan-and-decide policy promises: the first publication
achieving the minimum CER when that minimum is strictly below the threshold,
and no match otherwise. -/
def bestBelow (t2 : List Char) (threshold : ℚ) (pubs : List Publication) :
    Option Publication :=
  match minimumCer t2 pubs with
  | none => none
  | some m =>
    if m < threshold then pubs.find? (fun p => decide (cerOf t2 p = m)) else none

/-- One edit operation of the spec's distance (spec 4.2): a single-character
insertion, deletion, substitution, or transposition of two adjacent
characters, anywhere in the string. -/
inductive dlStep : List Char → List Char → Prop
  | ins (u v : List Char) (c : Char) : dlStep (u ++ v) (u ++ c :: v)
  | del (u v : List Char) (c : Char) : dlStep (u ++ c :: v) (u ++ v)
  | sub (u v : List Char) (b c : Char) : dlStep (u ++ b :: v) (u ++ c :: v)
  | swap (u v : List Char) (b c : Char) :
      dlStep (u ++ b :: c :: v) (u ++ c :: b :: v)

/-- Transforming `a` into `c` by exactly `n` edit operations. -/
inductive dlReach : Nat → List Char → List Char → Prop
  | refl (a : List Char) : dlReach 0 a a
  | step {a b c : List Char} {n : Nat} :
      dlStep a b → dlReach n b c → dlReach (n + 1) a c

/-- Stated from the spec's words (4.2): `n` is the Damerau-Levenshtein
distance of `a` and `b` when it is the minimum number of single-character
insertions, deletions, substitutions and adjacent transpositions needed to
transform `a` into `b`. -/
def isDamerauLevenshtein (a b : List Char) (n : Nat) : Prop :=
  dlReach n a b ∧ ∀ m, dlReach m a b → n ≤ m

/-- A lowercase Latin letter `a`..`z` (code points 97-122), the alphabet the
spec asserts for normalized output. -/
def isLowerLatin (c : Char) : Bool := 97 ≤ c.toNat && c.toNat ≤ 122

/-- A publication carrying only a title, as the title search consumes it. -/
def mkPub (t : List Char) : Publication :=
  { pkey := [], ptype := none, title := t, authors := [] }

/-- The spec's normalization example input, `"Gödel, Kurt (1931)!"`. -/
def goedelRaw : List Char :=
  ['G','ö','d','e','l',',',' ','K','u','r','t',' ','(','1','9','3','1',')','!']

theorem levFuel_symm (s1 s2 : List Char) :
    ∀ f i j, levFuel s1 s2 f i j = levFuel s2 s1 f j i := by
  intro f
  induction f with
  | zero =>
    intro i j
    match i, j with
    | 0, 0 => rfl
    | 0, j+1 => rfl
    | i+1, 0 => rfl
    | i+1, j+1 => rfl
  | succ f ih =>
    intro i j
    match i, j with
    | 0, 0 => rfl
    | 0, j+1 => rfl
    | i+1, 0 => rfl
    | i+1, j+1 =>
      have hcost : (if s1.getD i ' ' = s2.getD j ' ' then (0:Nat) else 1)
          = (if s2.getD j ' ' = s1.getD i ' ' then (0:Nat) else 1) := by
        by_cases h : s1.getD i ' ' = s2.getD j ' '
        · rw [if_pos h, if_pos h.symm]
        · rw [if_neg h, if_neg (fun hh => h hh.symm)]
      have hcond : (1 ≤ i ∧ 1 ≤ j ∧ s1.getD i ' ' = s2.getD (j-1) ' '
            ∧ s1.getD (i-1) ' ' = s2.getD j ' ')
          ↔ (1 ≤ j ∧ 1 ≤ i ∧ s2.getD j ' ' = s1.getD (i-1) ' '
            ∧ s2.getD (j-1) ' ' = s1.getD i ' ') := by
        constructor
        · rintro ⟨a, b, c, d⟩; exact ⟨b, a, d.symm, c.symm⟩
        · rintro ⟨a, b, c, d⟩; exact ⟨b, a, d.symm, c.symm⟩
      simp only [levFuel]
      rw [ih i (j+1), ih (i+1) j, ih i j, ih (i-1) (j-1), hcost]
      by_cases h : (1 ≤ i ∧ 1 ≤ j ∧ s1.getD i ' ' = s2.getD (j-1) ' '
          ∧ s1.getD (i-1) ' ' = s2.getD j ' ')
      · rw [if_pos h, if_pos (hcond.mp h)]
        omega
      · rw [if_neg h, if_neg (fun hh => h (hcond.mpr hh))]
        omega

theorem dlReach_trans {a b c : List Char} {m n : Nat}
    (h1 : dlReach m a b) (h2 : dlReach n b c) : dlReach (m + n) a c := by
  induction h1 with
  | refl => simpa using h2
  | @step a1 b1 c1 k hs _hr ih =>
    have h3 := dlReach.step hs (ih h2)
    have he : k + 1 + n = k + n + 1 := by omega
    rw [he]
    exact h3

theorem dlStep_append_right {x y : List Char} (s : List Char)
    (h : dlStep x y) : dlStep (x ++ s) (y ++ s) := by
  cases h with
  | ins u v c => simpa [List.append_assoc] using dlStep.ins u (v ++ s) c
  | del u v c => simpa [List.append_assoc] using dlStep.del u (v ++ s) c
  | sub u v b c => simpa [List.append_assoc] using dlStep.sub u (v ++ s) b c
  | swap u v b c => simpa [List.append_assoc] using dlStep.swap u (v ++ s) b c

theorem dlStep_append_left {x y : List Char} (s : List Char)
    (h : dlStep x y) : dlStep (s ++ x) (s ++ y) := by
  cases h with
  | ins u v c => simpa [List.append_assoc] using dlStep.ins (s ++ u) v c
  | del u v c => simpa [List.append_assoc] using dlStep.del (s ++ u) v c
  | sub u v b c => simpa [List.append_assoc] using dlStep.sub (s ++ u) v b c
  | swap u v b c => simpa [List.append_assoc] using dlStep.swap (s ++ u) v b c

theorem dlReach_append_right {n : Nat} {x y : List Char} (s : List Char)
    (h : dlReach n x y) : dlReach n (x ++ s) (y ++ s) := by
  induction h with
  | refl => exact dlReach.refl _
  | step hs _hr ih => exact dlReach.step (dlStep_append_right s hs) ih

theorem dlReach_append_left {n : Nat} {x y : List Char} (s : List Char)
    (h : dlReach n x y) : dlReach n (s ++ x) (s ++ y) := by
  induction h with
  | refl => exact dlReach.refl _
  | step hs _hr ih => exact dlReach.step (dlStep_append_left s hs) ih

theorem dlReach_nil_to (t : List Char) : dlReach t.length [] t := by
  induction t with
  | nil => exact dlReach.refl []
  | cons c t ih =>
    have h1 : dlStep [] [c] := by simpa using dlStep.ins [] [] c
    have h2 : dlReach t.length [c] (c :: t) := by
      simpa using dlReach_append_left [c] ih
    exact dlReach.step h1 h2

theorem dlReach_to_nil (t : List Char) : dlReach t.length t [] := by
  induction t with
  | nil => exact dlReach.refl []
  | cons c t ih =>
    have h1 : dlStep (c :: t) t := by simpa using dlStep.del [] t c
    exact dlReach.step h1 ih

theorem take_succ_getD (l : List Char) : ∀ n, n < l.length →
    l.take (n + 1) = l.take n ++ [l.getD n ' '] := by
  induction l with
  | nil => intro n h; simp at h
  | cons c l ih =>
    intro n h
    cases n with
    | zero => simp
    | succ n =>
      have := ih n (by simpa using h)
      simp [List.take_succ_cons, this]

theorem levFuel_reach (s1 s2 : List Char) :
    ∀ f i j, i + j ≤ f → i ≤ s1.length → j ≤ s2.length →
      dlReach (levFuel s1 s2 f i j) (s1.take i) (s2.take j) := by
  intro f
  induction f with
  | zero =>
    intro i j hf hi hj
    have hi0 : i = 0 := by omega
    have hj0 : j = 0 := by omega
    subst hi0; subst hj0
    exact dlReach.refl _
  | succ f ih =>
    intro i j hf hi hj
    match i, j with
    | 0, j =>
      have hl : (s2.take j).length = j := by
        simpa using Nat.min_eq_left hj
      simpa [hl] using dlReach_nil_to (s2.take j)
    | i+1, 0 =>
      have hl : (s1.take (i+1)).length = i + 1 := by
        simpa using Nat.min_eq_left hi
      simpa [hl] using dlReach_to_nil (s1.take (i+1))
    | i+1, j+1 =>
      have hi' : i < s1.length := by omega
      have hj' : j < s2.length := by omega
      have hA := ih i (j+1) (by omega) (by omega) hj
      have hB := ih (i+1) j (by omega) hi (by omega)
      have hC := ih i j (by omega) (by omega) (by omega)
      have e1 := take_succ_getD s1 i hi'
      have e2 := take_succ_getD s2 j hj'
      have hdel : dlReach (levFuel s1 s2 f i (j+1) + 1)
          (s1.take (i+1)) (s2.take (j+1)) := by
        refine dlReach.step ?_ hA
        rw [e1]
        simpa using dlStep.del (s1.take i) [] (s1.getD i ' ')
      have hins : dlReach (levFuel s1 s2 f (i+1) j + 1)
          (s1.take (i+1)) (s2.take (j+1)) := by
        have hstep : dlStep (s2.take j) (s2.take (j+1)) := by
          rw [e2]
          simpa using dlStep.ins (s2.take j) [] (s2.getD j ' ')
        exact dlReach_trans hB (dlReach.step hstep (dlReach.refl _))
      by_cases hc : s1.getD i ' ' = s2.getD j ' '
      · -- cost 0
        have hsub : dlReach (levFuel s1 s2 f i j)
            (s1.take (i+1)) (s2.take (j+1)) := by
          rw [e1, e2, hc]
          exact dlReach_append_right _ hC
        by_cases hcond : 1 ≤ i ∧ 1 ≤ j ∧ s1.getD i ' ' = s2.getD (j-1) ' '
            ∧ s1.getD (i-1) ' ' = s2.getD j ' '
        · obtain ⟨h1i, h1j, ht1, ht2⟩ := hcond
          obtain ⟨k, rfl⟩ : ∃ k, i = k + 1 := ⟨i - 1, by omega⟩
          obtain ⟨l, rfl⟩ : ∃ l, j = l + 1 := ⟨j - 1, by omega⟩
          have hT := ih k l (by omega) (by omega) (by omega)
          have ek1 : s1.take (k+2) = s1.take k ++ [s1.getD k ' ', s1.getD (k+1) ' '] := by
            rw [take_succ_getD s1 (k+1) (by omega), take_succ_getD s1 k (by omega),
              List.append_assoc]
            rfl
          have el1 : s2.take (l+2) = s2.take l ++ [s2.getD l ' ', s2.getD (l+1) ' '] := by
            rw [take_succ_getD s2 (l+1) (by omega), take_succ_getD s2 l (by omega),
              List.append_assoc]
            rfl
          have ht1' : s1.getD (k+1) ' ' = s2.getD l ' ' := by simpa using ht1
          have ht2' : s1.getD k ' ' = s2.getD (l+1) ' ' := by simpa using ht2
          have htra : dlReach (levFuel s1 s2 f k l)
              (s1.take (k+2)) (s2.take (l+2)) := by
            rw [ek1, el1]
            have hq1 : s1.getD k ' ' = s2.getD l ' ' := by
              rw [ht2', ← hc, ht1']
            rw [hq1, hc]
            exact dlReach_append_right _ hT
          have hcase : levFuel s1 s2 (f+1) (k+2) (l+2)
              = levFuel s1 s2 f (k+1) (l+2) + 1
            ∨ levFuel s1 s2 (f+1) (k+2) (l+2) = levFuel s1 s2 f (k+2) (l+1) + 1
            ∨ levFuel s1 s2 (f+1) (k+2) (l+2) = levFuel s1 s2 f (k+1) (l+1)
            ∨ levFuel s1 s2 (f+1) (k+2) (l+2) = levFuel s1 s2 f k l := by
            simp only [levFuel]
            rw [if_pos hc, if_pos ⟨by omega, by omega, by simpa using ht1, by simpa using ht2⟩]
            simp only [show k + 1 + 1 = k + 2 from rfl, show l + 1 + 1 = l + 2 from rfl,
              Nat.add_sub_cancel]
            omega
          rcases hcase with h | h | h | h <;> rw [h]
          · exact hdel
          · exact hins
          · exact hsub
          · exact htra
        · have hcase : levFuel s1 s2 (f+1) (i+1) (j+1)
              = levFuel s1 s2 f i (j+1) + 1
            ∨ levFuel s1 s2 (f+1) (i+1) (j+1) = levFuel s1 s2 f (i+1) j + 1
            ∨ levFuel s1 s2 (f+1) (i+1) (j+1) = levFuel s1 s2 f i j := by
            simp only [levFuel]
            rw [if_pos hc, if_neg hcond]
            omega
          rcases hcase with h | h | h <;> rw [h]
          · exact hdel
          · exact hins
          · exact hsub
      · -- cost 1
        have hsub : dlReach (levFuel s1 s2 f i j + 1)
            (s1.take (i+1)) (s2.take (j+1)) := by
          rw [e1, e2]
          refine dlReach.step (b := s1.take i ++ [s2.getD j ' ']) ?_ ?_
          · simpa using dlStep.sub (s1.take i) [] (s1.getD i ' ') (s2.getD j ' ')
          · exact dlReach_append_right _ hC
        by_cases hcond : 1 ≤ i ∧ 1 ≤ j ∧ s1.getD i ' ' = s2.getD (j-1) ' '
            ∧ s1.getD (i-1) ' ' = s2.getD j ' '
        · obtain ⟨h1i, h1j, ht1, ht2⟩ := hcond
          obtain ⟨k, rfl⟩ : ∃ k, i = k + 1 := ⟨i - 1, by omega⟩
          obtain ⟨l, rfl⟩ : ∃ l, j = l + 1 := ⟨j - 1, by omega⟩
          have hT := ih k l (by omega) (by omega) (by omega)
          have ek1 : s1.take (k+2) = s1.take k ++ [s1.getD k ' ', s1.getD (k+1) ' '] := by
            rw [take_succ_getD s1 (k+1) (by omega), take_succ_getD s1 k (by omega),
              List.append_assoc]
            rfl
          have el1 : s2.take (l+2) = s2.take l ++ [s2.getD l ' ', s2.getD (l+1) ' '] := by
            rw [take_succ_getD s2 (l+1) (by omega), take_succ_getD s2 l (by omega),
              List.append_assoc]
            rfl
          have ht1' : s1.getD (k+1) ' ' = s2.getD l ' ' := by simpa using ht1
          have ht2' : s1.getD k ' ' = s2.getD (l+1) ' ' := by simpa using ht2
          have htra : dlReach (levFuel s1 s2 f k l + 1)
              (s1.take (k+2)) (s2.take (l+2)) := by
            rw [ek1, el1]
            refine dlReach.step
              (b := s1.take k ++ [s1.getD (k+1) ' ', s1.getD k ' ']) ?_ ?_
            · simpa using dlStep.swap (s1.take k) [] (s1.getD k ' ') (s1.getD (k+1) ' ')
            · rw [ht1', ht2']
              exact dlReach_append_right _ hT
          have hcase : levFuel s1 s2 (f+1) (k+2) (l+2)
              = levFuel s1 s2 f (k+1) (l+2) + 1
            ∨ levFuel s1 s2 (f+1) (k+2) (l+2) = levFuel s1 s2 f (k+2) (l+1) + 1
            ∨ levFuel s1 s2 (f+1) (k+2) (l+2) = levFuel s1 s2 f (k+1) (l+1) + 1
            ∨ levFuel s1 s2 (f+1) (k+2) (l+2) = levFuel s1 s2 f k l + 1 := by
            simp only [levFuel]
            rw [if_neg hc, if_pos ⟨by omega, by omega, by simpa using ht1, by simpa using ht2⟩]
            simp only [show k + 1 + 1 = k + 2 from rfl, show l + 1 + 1 = l + 2 from rfl,
              Nat.add_sub_cancel]
            omega
          rcases hcase with h | h | h | h <;> rw [h]
          · exact hdel
          · exact hins
          · exact hsub
          · exact htra
        · have hcase : levFuel s1 s2 (f+1) (i+1) (j+1)
              = levFuel s1 s2 f i (j+1) + 1
            ∨ levFuel s1 s2 (f+1) (i+1) (j+1) = levFuel s1 s2 f (i+1) j + 1
            ∨ levFuel s1 s2 (f+1) (i+1) (j+1) = levFuel s1 s2 f i j + 1 := by
            simp only [levFuel]
            rw [if_neg hc, if_neg hcond]
            omega
          rcases hcase with h | h | h <;> rw [h]
          · exact hdel
          · exact hins
          · exact hsub

theorem toNat_ofNat_valid {n : Nat} (h : n < 55296) : (Char.ofNat n).toNat = n := by
  rw [Char.ofNat, dif_pos (Or.inl h)]
  rfl

theorem mem_normalize_ascii {s : List Char} {c : Char} (h : c ∈ normalize s) :
    ascii_letters c = true := by
  simp only [normalize, _remove_accents] at h
  exact (List.mem_filter.mp h).2

theorem ascii_letters_toNat {c : Char} (h : ascii_letters c = true) :
    (97 ≤ c.toNat ∧ c.toNat ≤ 122) ∨ (65 ≤ c.toNat ∧ c.toNat ≤ 90) := by
  simp only [ascii_letters, Bool.or_eq_true, Bool.and_eq_true, decide_eq_true_eq] at h
  exact h

theorem asciiLower_lower {c : Char} (h : ascii_letters c = true) :
    97 ≤ (asciiLower c).toNat ∧ (asciiLower c).toNat ≤ 122 := by
  rcases ascii_letters_toNat h with h' | h'
  · rw [asciiLower, if_neg (by omega)]
    exact h'
  · rw [asciiLower, if_pos (by omega), toNat_ofNat_valid (by omega)]
    omega

theorem lower_fix {c : Char} (h1 : 97 ≤ c.toNat) (h2 : c.toNat ≤ 122) :
    asciiLower c = c ∧ nfkd c = [c] ∧ ascii_letters c = true := by
  have hne1 : c ≠ 'ö' := by
    rintro rfl
    exact absurd h2 (by decide)
  have hne2 : c ≠ 'Ö' := by
    rintro rfl
    exact absurd h2 (by decide)
  refine ⟨?_, ?_, ?_⟩
  · rw [asciiLower, if_neg (by omega)]
  · rw [nfkd, if_neg hne1, if_neg hne2]
  · simp only [ascii_letters, Bool.or_eq_true, Bool.and_eq_true, decide_eq_true_eq]
    left
    exact ⟨h1, h2⟩

theorem remove_accents_fix : ∀ (l : List Char),
    (∀ c ∈ l, 97 ≤ c.toNat ∧ c.toNat ≤ 122) → _remove_accents l = l := by
  intro l
  induction l with
  | nil => intro _; rfl
  | cons c l ih =>
    intro h
    have hc := h c (by simp)
    obtain ⟨_, h2, h3⟩ := lower_fix hc.1 hc.2
    simp only [_remove_accents, List.flatMap_cons, h2, List.filter_append]
    have : List.filter ascii_letters [c] = [c] := by simp [h3]
    rw [this]
    have ihr := ih (fun d hd => h d (by simp [hd]))
    simp only [_remove_accents] at ihr
    rw [ihr]
    rfl

theorem normalize_normalize (s : List Char) :
    normalize (normalize s) = (normalize s).map asciiLower := by
  have hlow : ∀ c ∈ (normalize s).map asciiLower, 97 ≤ c.toNat ∧ c.toNat ≤ 122 := by
    intro c hc
    obtain ⟨d, hd, rfl⟩ := List.mem_map.mp hc
    exact asciiLower_lower (mem_normalize_ascii hd)
  calc normalize (normalize s)
      = _remove_accents ((normalize s).map asciiLower) := rfl
    _ = (normalize s).map asciiLower := remove_accents_fix _ hlow

theorem map_asciiLower_fix : ∀ (l : List Char),
    (∀ c ∈ l, asciiLower c = c) → l.map asciiLower = l := by
  intro l
  induction l with
  | nil => intro _; rfl
  | cons c l ih =>
    intro h
    simp [h c (by simp), ih (fun d hd => h d (by simp [hd]))]

theorem normalize_third (s : List Char) :
    normalize (normalize (normalize s)) = normalize (normalize s) := by
  rw [normalize_normalize s]
  have hlow : ∀ c ∈ (normalize s).map asciiLower, 97 ≤ c.toNat ∧ c.toNat ≤ 122 := by
    intro c hc
    obtain ⟨d, hd, rfl⟩ := List.mem_map.mp hc
    exact asciiLower_lower (mem_normalize_ascii hd)
  have hfix : ∀ c ∈ (normalize s).map asciiLower, asciiLower c = c := by
    intro c hc
    exact (lower_fix (hlow c hc).1 (hlow c hc).2).1
  show _remove_accents (((normalize s).map asciiLower).map asciiLower)
      = (normalize s).map asciiLower
  rw [map_asciiLower_fix _ hfix]
  exact remove_accents_fix _ hlow

theorem normalize_length_ne {p : Publication} (h : normalize p.title ≠ []) :
    ¬ (normalize p.title).length = 0 := by
  simpa [List.length_eq_zero] using h

theorem cerOf_def (t2 : List Char) (p : Publication) :
    mkRat (_levenshtein (normalize p.title) t2) (normalize p.title).length
      = cerOf t2 p := rfl

theorem levScan_early (t2 : List Char) (θ : ℚ) (p : Publication)
    (post : List Publication) (hp : normalize p.title ≠ [])
    (hcer : cerOf t2 p < mkRat 1 100) :
    ∀ (pre : List Publication) (m : ℚ) (best : Option Publication),
      (∀ q ∈ pre, normalize q.title ≠ [] ∧ ¬ cerOf t2 q < mkRat 1 100) →
      levScan t2 θ (pre ++ p :: post) m best = .ok (some p) := by
  intro pre
  induction pre with
  | nil =>
    intro m best _h
    simp only [List.nil_append, levScan]
    simp only [cerOf_def]
    rw [if_neg (normalize_length_ne hp), if_pos hcer]
  | cons q pre ih =>
    intro m best h
    have hq := h q (by simp)
    simp only [List.cons_append, levScan]
    simp only [cerOf_def]
    rw [if_neg (normalize_length_ne hq.1), if_neg hq.2]
    have hrest : ∀ r ∈ pre, normalize r.title ≠ [] ∧ ¬ cerOf t2 r < mkRat 1 100 :=
      fun r hr => h r (by simp [hr])
    split
    · exact ih _ _ hrest
    · exact ih _ _ hrest

theorem levScan_noEarly (t2 : List Char) (θ : ℚ) :
    ∀ (pubs : List Publication) (m : ℚ) (best : Option Publication),
      (∀ p ∈ pubs, normalize p.title ≠ [] ∧ ¬ cerOf t2 p < mkRat 1 100) →
      levScan t2 θ pubs m best = .ok (match minimumCer t2 pubs with
        | none => if m < θ then best else none
        | some μ =>
          if μ < m then
            (if μ < θ then pubs.find? (fun p => decide (cerOf t2 p = μ)) else none)
          else if m < θ then best else none) := by
  intro pubs
  induction pubs with
  | nil =>
    intro m best _h
    simp [levScan, minimumCer]
  | cons p ps ih =>
    intro m best h
    have hp := h p (by simp)
    have hrest : ∀ r ∈ ps, normalize r.title ≠ [] ∧ ¬ cerOf t2 r < mkRat 1 100 :=
      fun r hr => h r (by simp [hr])
    simp only [levScan]
    simp only [cerOf_def]
    rw [if_neg (normalize_length_ne hp.1), if_neg hp.2]
    by_cases hm : cerOf t2 p < m
    · rw [if_pos hm, ih _ _ hrest]
      rcases hmc : minimumCer t2 ps with _ | μ'
      · simp only [minimumCer, hmc]
        rw [List.find?_cons_of_pos _ (by simp), if_pos hm]
      · simp only [minimumCer, hmc]
        by_cases hcm : μ' < cerOf t2 p
        · rw [min_eq_right (le_of_lt hcm), if_pos hcm,
            if_pos (show μ' < m by linarith),
            List.find?_cons_of_neg _ (by intro hh; simp only [decide_eq_true_eq] at hh; linarith)]
        · rw [min_eq_left (le_of_not_lt hcm), if_neg hcm, if_pos hm,
            List.find?_cons_of_pos _ (by simp)]
    · rw [if_neg hm, ih _ _ hrest]
      rcases hmc : minimumCer t2 ps with _ | μ'
      · simp only [minimumCer, hmc]
        rw [if_neg hm]
      · simp only [minimumCer, hmc]
        by_cases hμm : μ' < m
        · rw [show min (cerOf t2 p) μ' = μ' from min_eq_right (by linarith), if_pos hμm,
            if_pos hμm,
            List.find?_cons_of_neg _ (by intro hh; simp only [decide_eq_true_eq] at hh; linarith)]
        · rw [if_neg hμm,
            if_neg (show ¬ min (cerOf t2 p) μ' < m from
              not_lt.mpr (le_min (not_lt.mp hm) (not_lt.mp hμm)))]

theorem exactScan_find (t2 : List Char) : ∀ pubs : List Publication,
    exactScan t2 pubs = pubs.find? (fun p => normalize p.title == t2) := by
  intro pubs
  induction pubs with
  | nil => rfl
  | cons p ps ih =>
    simp only [exactScan]
    by_cases hp : normalize p.title = t2
    · rw [if_pos hp, List.find?_cons_of_pos _ (by simpa using hp)]
    · rw [if_neg hp, List.find?_cons_of_neg _ (by simpa using hp), ih]

theorem search_by_title_lev (res : DBLPResult) (title : List Char) (θ : ℚ) :
    res.search_by_title title true θ
      = levScan (normalize title) θ res.publications 100 none := rfl

theorem search_by_title_exact (res : DBLPResult) (title : List Char) (θ : ℚ) :
    res.search_by_title title false θ
      = .ok (exactScan (normalize title) res.publications) := rfl

/-- C1: the spec requires that in approximate mode a candidate whose
normalized title is empty is treated as "no match" and the search completes
normally on every input list, never raising a division fault.  The code has
no such guard: on a publication list holding one publication whose title
normalizes to the empty string (here title `"42!"`), `search_by_title` with
`lev=True` evaluates `float(_levenshtein(t1,t2))/float(len(t1))` with
`len(t1) = 0` and raises `ZeroDivisionError` instead of completing. -/
theorem C1_zero_length_candidate_raises :
    (DBLPResult.mk [] [mkPub ['4','2','!']] []).search_by_title ['x'] true (mkRat 1 5)
      = .error Fault.zeroDivision := by decide

/-- C2 counterexample: `_levenshtein` does not compute the Damerau-Levenshtein
distance.  On `"ca"` and `"abc"` the function returns 3, yet two operations
suffice (transpose `ca` to `ac`, then insert `b`), so 3 is not the minimum
number of operations: the restricted (optimal-string-alignment) recurrence of
the code never edits a transposed pair again, while the true distance may. -/
theorem C2_counterexample :
    _levenshtein ['c','a'] ['a','b','c'] = 3
    ∧ dlReach 2 ['c','a'] ['a','b','c']
    ∧ ¬ isDamerauLevenshtein ['c','a'] ['a','b','c']
        (_levenshtein ['c','a'] ['a','b','c']) := by
  have h3 : _levenshtein ['c','a'] ['a','b','c'] = 3 := by decide
  have hswap : dlStep ['c','a'] ['a','c'] := by
    simpa using dlStep.swap [] [] 'c' 'a'
  have hins : dlStep ['a','c'] ['a','b','c'] := by
    simpa using dlStep.ins ['a'] ['c'] 'b'
  have h2 : dlReach 2 ['c','a'] ['a','b','c'] :=
    dlReach.step hswap (dlReach.step hins (dlReach.refl _))
  refine ⟨h3, h2, fun h => ?_⟩
  have hle := h.2 2 h2
  rw [h3] at hle
  omega

/-- C2 amended: for every pair of strings, `_levenshtein(a, b)` is the number
of operations of some valid edit sequence (insertions, deletions,
substitutions, adjacent transpositions) transforming `a` into `b` — hence an
upper bound on the Damerau-Levenshtein distance — but not always the minimum:
it computes the restricted (optimal-string-alignment) variant, which exceeds
the true distance e.g. on `("ca", "abc")`. -/
theorem C2_amended_script_length :
    ∀ a b : List Char, dlReach (_levenshtein a b) a b := by
  intro a b
  have h := levFuel_reach a b (a.length + b.length) a.length b.length
    (by omega) (by omega) (by omega)
  simpa [_levenshtein] using h

/-- C3 counterexample: the claim quantifies over every publication list, but
when a candidate earlier in the list has an empty normalized title (here
`"1931"`), the scan raises `ZeroDivisionError` before reaching the later
candidate whose CER is 0 < 0.01, instead of returning that candidate. -/
theorem C3_counterexample :
    (DBLPResult.mk [] [mkPub ['1','9','3','1'], mkPub ['a','b']] []).search_by_title
        ['a','b'] true (mkRat 1 5) = .error Fault.zeroDivision
    ∧ cerOf (normalize ['a','b']) (mkPub ['a','b']) < mkRat 1 100
    ∧ normalize (mkPub ['1','9','3','1']).title = [] :=
  ⟨by decide, by decide, by decide⟩

/-- C3 amended: in approximate mode, whenever the publication list splits as
`pre ++ p :: post` where every candidate in `pre` has a non-empty normalized
title and CER at least 0.01, and `p` has a non-empty normalized title and CER
below 0.01, `search_by_title` returns `p` immediately — for every threshold
whatsoever (the threshold and the candidates after `p` are never consulted,
so a later exact match cannot displace `p`). -/
theorem C3_amended_early_accept (res : DBLPResult) (title : List Char) (θ : ℚ)
    (pre post : List Publication) (p : Publication)
    (hsplit : res.publications = pre ++ p :: post)
    (hpre : ∀ q ∈ pre, normalize q.title ≠ [] ∧ ¬ cerOf (normalize title) q < mkRat 1 100)
    (hp : normalize p.title ≠ [])
    (hcer : cerOf (normalize title) p < mkRat 1 100) :
    res.search_by_title title true θ = .ok (some p) := by
  rw [search_by_title_lev, hsplit]
  exact levScan_early _ _ _ _ hp hcer pre 100 none hpre

theorem C3_amended_early_accept_witness :
    ((∀ q ∈ [mkPub ['x','y']],
        normalize q.title ≠ [] ∧ ¬ cerOf (normalize ['a','b']) q < mkRat 1 100)
      ∧ normalize (mkPub ['a','b']).title ≠ []
      ∧ cerOf (normalize ['a','b']) (mkPub ['a','b']) < mkRat 1 100)
    ∧ (DBLPResult.mk [] [mkPub ['x','y'], mkPub ['a','b']] []).search_by_title
        ['a','b'] true 5 = .ok (some (mkPub ['a','b'])) :=
  ⟨⟨by decide, by decide, by decide⟩,
    C3_amended_early_accept _ _ _ [mkPub ['x','y']] [] _ rfl
      (by decide) (by decide) (by decide)⟩

/-- C4 counterexample: the claim quantifies over every publication list, but
on a list holding a candidate whose normalized title is empty the scan raises
`ZeroDivisionError` instead of completing and reporting no match. -/
theorem C4_counterexample :
    (DBLPResult.mk [] [mkPub ['!','!']] []).search_by_title ['z'] true (mkRat 1 5)
      = .error Fault.zeroDivision
    ∧ normalize (mkPub ['!','!']).title = [] :=
  ⟨by decide, by decide⟩

/-- C4 amended: in approximate mode, when every candidate has a non-empty
normalized title, no candidate has CER below 0.01 (so none is early-accepted)
and the threshold is in the spec's valid range (at most 1), the search scans
the whole list and returns exactly `bestBelow`: the first candidate achieving
the minimum CER if that minimum is strictly below the threshold, and `None`
otherwise. -/
theorem C4_amended_best_match (res : DBLPResult) (title : List Char) (θ : ℚ)
    (hne : ∀ p ∈ res.publications, normalize p.title ≠ [])
    (hnoearly : ∀ p ∈ res.publications, ¬ cerOf (normalize title) p < mkRat 1 100)
    (hθ : θ ≤ 1) :
    res.search_by_title title true θ
      = .ok (bestBelow (normalize title) θ res.publications) := by
  rw [search_by_title_lev,
    levScan_noEarly _ _ _ _ _ (fun p hp => ⟨hne p hp, hnoearly p hp⟩)]
  congr 1
  rcases hmc : minimumCer (normalize title) res.publications with _ | μ
  · simp [bestBelow, hmc]
  · simp only [bestBelow, hmc]
    by_cases h100 : μ < 100
    · rw [if_pos h100]
    · rw [if_neg h100, if_neg (show ¬ μ < θ by push_neg at h100 ⊢; linarith)]
      simp

theorem C4_amended_best_match_witness :
    ((∀ p ∈ [mkPub ['a','b']], normalize p.title ≠ [])
      ∧ (∀ p ∈ [mkPub ['a','b']], ¬ cerOf (normalize ['a','c']) p < mkRat 1 100)
      ∧ (mkRat 3 5) ≤ 1)
    ∧ (DBLPResult.mk [] [mkPub ['a','b']] []).search_by_title ['a','c'] true (mkRat 3 5)
        = .ok (bestBelow (normalize ['a','c']) (mkRat 3 5) [mkPub ['a','b']])
    ∧ bestBelow (normalize ['a','c']) (mkRat 3 5) [mkPub ['a','b']]
        = some (mkPub ['a','b']) :=
  ⟨⟨by decide, by decide, by decide⟩,
    C4_amended_best_match _ _ _ (by decide) (by decide) (by decide), by decide⟩

/-- C5 counterexample: normalization does not always yield lowercase.  The
byte-level lowercasing runs before Unicode decomposition and only affects
unaccented ASCII capitals, so the accented capital `Ö` decomposes to the
capital `O`, which the ASCII-letter filter keeps: `normalize "Ö" = "O"`. -/
theorem C5_counterexample :
    normalize ['Ö'] = ['O'] ∧ (normalize ['Ö']).all isLowerLatin = false :=
  ⟨by decide, by decide⟩

/-- C5 amended: for every input string the normalization pipeline outputs
only ASCII Latin letters — upper or lower case — and in particular no spaces,
digits or punctuation; "only lowercase" fails exactly when the input has
uppercase accented letters, e.g. `Ö`. -/
theorem C5_amended_output_ascii : ∀ s : List Char,
    (normalize s).all ascii_letters = true ∧ ' ' ∉ normalize s := by
  intro s
  constructor
  · rw [List.all_eq_true]
    intro c hc
    exact mem_normalize_ascii hc
  · intro hmem
    exact absurd (mem_normalize_ascii hmem) (by decide)

/-- C6 counterexample: normalizing `"Gödel, Kurt (1931)!"` yields
`"godelkurt"`, not the spec's `"gdelkurt"`: decomposition happens before
filtering, so `ö` is reduced to its base letter `o` rather than dropped. -/
theorem C6_counterexample :
    normalize goedelRaw = ['g','o','d','e','l','k','u','r','t']
    ∧ normalize goedelRaw ≠ ['g','d','e','l','k','u','r','t'] :=
  ⟨by decide, by decide⟩

/-- C6 amended: normalizing the specific input `"Gödel, Kurt (1931)!"` yields
exactly the string `"godelkurt"` (the accented `ö` is kept as `o`). -/
theorem C6_amended_goedel_value :
    normalize goedelRaw = ['g','o','d','e','l','k','u','r','t'] := by decide

/-- C7 counterexample: normalization is not idempotent.  `normalize "Ö"`
is `"O"`, and normalizing again lowercases the now-unaccented capital:
`normalize (normalize "Ö") = "o" ≠ "O"`. -/
theorem C7_counterexample :
    normalize ['Ö'] = ['O'] ∧ normalize (normalize ['Ö']) = ['o']
    ∧ normalize (normalize ['Ö']) ≠ normalize ['Ö'] :=
  ⟨by decide, by decide, by decide⟩

/-- C7 amended: a second normalization only lowercases — for every string,
`normalize (normalize s)` equals `normalize s` mapped through the ASCII
lowercasing, so normalization is idempotent from the second application on
(`normalize³ = normalize²`), and `normalize (normalize s) = normalize s`
holds exactly when `normalize s` is already all lowercase, which fails for
inputs with uppercase accented letters such as `Ö`. -/
theorem C7_amended_normalize_stable : ∀ s : List Char,
    normalize (normalize s) = (normalize s).map asciiLower
      ∧ normalize (normalize (normalize s)) = normalize (normalize s) :=
  fun s => ⟨normalize_normalize s, normalize_third s⟩

/-- C8: in exact mode the matcher accepts iff the two normalized titles are
identical (`_is_target` with `lev=False` returns `True` exactly on equal
normalized strings, and `search_by_title` with `lev=False` returns the first
publication whose normalized title equals the normalized target), and in
particular `"Deep Learning"` matches `"deep learning"`. -/
theorem C8_exact_mode_iff :
    (∀ t1 t2 : List Char, ∀ θ : ℚ,
        (_is_target t1 t2 false θ = .ok true ↔ normalize t1 = normalize t2))
    ∧ (∀ (res : DBLPResult) (t : List Char) (θ : ℚ),
        res.search_by_title t false θ
          = .ok (res.publications.find? (fun p => normalize p.title == normalize t)))
    ∧ _is_target ['D','e','e','p',' ','L','e','a','r','n','i','n','g']
        ['d','e','e','p',' ','l','e','a','r','n','i','n','g'] false (mkRat 1 5)
      = .ok true := by
  refine ⟨?_, ?_, by decide⟩
  · intro t1 t2 θ
    by_cases h : normalize t1 = normalize t2 <;> simp [_is_target, h]
  · intro res t θ
    rw [search_by_title_exact, exactScan_find]

/-- C9: the edit-distance function is symmetric,
`_levenshtein(a, b) = _levenshtein(b, a)` for all strings `a` and `b`. -/
theorem C9_levenshtein_symmetric :
    ∀ a b : List Char, _levenshtein a b = _levenshtein b a := by
  intro a b
  unfold _levenshtein
  rw [levFuel_symm, Nat.add_comm]

/-- C10: the early accept is threshold-independent.  For every threshold in
`[0, 1]` — including 0, under which the final best-candidate comparison
`min_cer < threshold` would accept nothing — `search_by_title` with
`lev=True` returns the first publication whose CER is below 0.01 whenever
such a publication exists and every earlier publication has a non-empty
normalized title (and hence a defined CER, which is at least 0.01). -/
theorem C10_threshold_independent_early_accept (res : DBLPResult)
    (title : List Char) (θ : ℚ) (hθ0 : 0 ≤ θ) (hθ1 : θ ≤ 1)
    (pre post : List Publication) (p : Publication)
    (hsplit : res.publications = pre ++ p :: post)
    (hpre : ∀ q ∈ pre, normalize q.title ≠ [] ∧ ¬ cerOf (normalize title) q < mkRat 1 100)
    (hp : normalize p.title ≠ [])
    (hcer : cerOf (normalize title) p < mkRat 1 100) :
    res.search_by_title title true θ = .ok (some p) := by
  rw [search_by_title_lev, hsplit]
  exact levScan_early _ _ _ _ hp hcer pre 100 none hpre

theorem C10_threshold_independent_early_accept_witness :
    ((0:ℚ) ≤ 0 ∧ (0:ℚ) ≤ 1
      ∧ (∀ q ∈ [mkPub ['u','v']],
          normalize q.title ≠ [] ∧ ¬ cerOf (normalize ['c','d']) q < mkRat 1 100)
      ∧ normalize (mkPub ['c','d']).title ≠ []
      ∧ cerOf (normalize ['c','d']) (mkPub ['c','d']) < mkRat 1 100)
    ∧ (DBLPResult.mk [] [mkPub ['u','v'], mkPub ['c','d']] []).search_by_title
        ['c','d'] true 0 = .ok (some (mkPub ['c','d'])) :=
  ⟨⟨by decide, by decide, by decide, by decide, by decide⟩,
    C10_threshold_independent_early_accept _ _ _ (by decide) (by decide)
      [mkPub ['u','v']] [] _ rfl (by decide) (by decide) (by decide)⟩

end Dblp
